import Mathlib

/-!
Verification of the lcapy Laplace-transform core (laplace.py and
inverse_laplace.py) against its natural-language specification.

Each section embeds, as Lean definitions, the fragment of the Python
source that a claim is about, and settles the claim as a theorem.
The transformer control flow is modelled computably; real-valued
denotations of the symbolic outputs are separate noncomputable
definitions used only in theorem statements.
-/

namespace Lcapy

/-- Tri-state sign knowledge returned by the algebra substrate's sign
queries (SymPy's is_negative / is_positive, which can also be
undetermined).  The value sgNeg models is_negative being True, sgPos
models is_positive being True, sgUnknown models both queries returning
a non-True answer for a nonzero quantity. -/
inductive SSign where
  | sgNeg
  | sgPos
  | sgUnknown
  deriving DecidableEq, Repr

/-- Syntactic shape of the extracted step delay tau, as tested by
laplace.py lines 209-213: a bare Symbol, a product of a negative
constant and a Symbol, or anything else. -/
inductive TShape where
  | tsSymbol
  | tsNegMulSymbol
  | tsOther
  deriving DecidableEq, Repr

/-- Capitalisation of the first character of a function name, as done
by laplace.py line 89 (name[0].upper() + name[1:]) to turn a
time-domain function name into a frequency-domain one.  Names are
modelled as lists of characters; the Python code would raise on an
empty name, the model returns the empty name. -/
def capitalizeName : List Char → List Char
  | [] => []
  | c :: cs => c.toUpper :: cs

/-- Decapitalisation of the first character of a function name, as done
by inverse_laplace.py line 49 (name[0].lower() + name[1:]) to turn a
frequency-domain function name into a time-domain one. -/
def decapitalizeName : List Char → List Char
  | [] => []
  | c :: cs => c.toLower :: cs

/-! ### C5: linearity of the classifier skeleton

laplace.py lines 237-244: the forward dispatcher first factors the
largest constant out of a term (factor_const from utils), then splits
the remaining expression into ordered terms and recurses on each, and
finally multiplies the constant back into the summed result.
inverse_laplace.py line 327 multiplies the factored constant into both
components of the (cresult, uresult) pair, and lines 365-373 split a
sum term by term, adding corresponding components.  The skeleton is
embedded over a small term language whose atoms are dispatched to an
arbitrary base rule T0. -/

/-- Term language for the classifier skeleton: an opaque atom (a term
the dispatcher hands to a direction-specific rule), a constant
multiple, and a sum. -/
inductive LinE where
  | atom (i : ℕ)
  | smul (c : ℚ) (e : LinE)
  | add (a b : LinE)
  deriving DecidableEq, Repr

/-- Constant extraction of the classifier (factor_const in utils.py,
used at laplace.py line 237 and inverse_laplace.py lines 202 and 313):
strip nested constant factors, returning the accumulated constant and
the constant-free remainder. -/
def factorConst : LinE → ℚ × LinE
  | .smul c e => ((factorConst e).1 * c, (factorConst e).2)
  | .atom i => (1, .atom i)
  | .add a b => (1, .add a b)

/-- Forward classifier skeleton (laplace.py term, lines 237-244): a
constant factor is taken out and re-multiplied into the result, a sum
is transformed term by term, and an atom is dispatched to the base
rule T0 valued in a rational module M. -/
def termF {M : Type} [AddCommMonoid M] [Module ℚ M] (T0 : ℕ → M) : LinE → M
  | .smul c e => c • termF T0 e
  | .add a b => termF T0 a + termF T0 b
  | .atom i => T0 i

/-- Inverse classifier skeleton (inverse_laplace.py term1 line 327 and
term lines 365-373): results are pairs (cresult, uresult); a factored
constant multiplies both components and sums add componentwise. -/
def termI {M : Type} [AddCommMonoid M] [Module ℚ M]
    (T0c T0u : ℕ → M) : LinE → M × M
  | .smul c e => c • termI T0c T0u e
  | .add a b => termI T0c T0u a + termI T0c T0u b
  | .atom i => (T0c i, T0u i)

/-- Relation between the one-step-at-a-time recursion used in the
skeleton and the explicit factor-then-dispatch shape of the source:
the transform of a term equals the extracted constant times the
transform of the constant-free remainder. -/
theorem termF_factorConst {M : Type} [AddCommMonoid M] [Module ℚ M]
    (T0 : ℕ → M) (e : LinE) :
    termF T0 e = (factorConst e).1 • termF T0 (factorConst e).2 := by
  induction e with
  | atom i => simp [factorConst, termF]
  | smul c e ih =>
      simp only [factorConst, termF]
      rw [ih, mul_smul, smul_comm]
  | add a b iha ihb => simp [factorConst, termF]

/-! ### C7: the naming convention round trip

laplace.py func (lines 78-95) renames a time-domain unknown function
by upper-casing the first character of its name;
inverse_laplace.py func (lines 40-55) lower-cases the first character.
The round trip restores names whose first character is not already of
the opposite case; it does not restore, e.g., a time-domain function
whose name already starts with an upper-case letter. -/

/-- Value of Char.ofNat on a valid codepoint. -/
theorem charToNatOfNatValid (k : ℕ) (h : k.isValidChar) :
    (Char.ofNat k).toNat = k := by
  rw [Char.ofNat, dif_pos h]
  rfl

/-- Is the character an upper-case ASCII letter (the characters whose
case Python's str.lower would change and str.upper would keep). -/
def isUpperAlpha (c : Char) : Bool := decide (65 ≤ c.toNat ∧ c.toNat ≤ 90)

/-- Is the character a lower-case ASCII letter. -/
def isLowerAlpha (c : Char) : Bool := decide (97 ≤ c.toNat ∧ c.toNat ≤ 122)

/-- First character of a name is an upper-case ASCII letter. -/
def headIsUpper : List Char → Bool
  | [] => false
  | c :: _ => isUpperAlpha c

/-- First character of a name is a lower-case ASCII letter. -/
def headIsLower : List Char → Bool
  | [] => false
  | c :: _ => isLowerAlpha c

theorem char_upper_then_lower (c : Char) (h : ¬ (65 ≤ c.toNat ∧ c.toNat ≤ 90)) :
    c.toUpper.toLower = c := by
  by_cases hl : 97 ≤ c.toNat ∧ c.toNat ≤ 122
  · have hv : (c.toNat - 32).isValidChar := Or.inl (by omega)
    have h1 : c.toUpper = Char.ofNat (c.toNat - 32) := by
      rw [Char.toUpper, if_pos (by exact ⟨hl.1, hl.2⟩)]
    have h2 : (c.toUpper).toNat = c.toNat - 32 := by
      rw [h1, charToNatOfNatValid _ hv]
    rw [Char.toLower, if_pos (by rw [h2]; omega)]
    rw [h2]
    have h3 : c.toNat - 32 + 32 = c.toNat := by omega
    rw [h3, Char.ofNat_toNat]
  · have h1 : c.toUpper = c := by
      rw [Char.toUpper, if_neg (by exact fun hc => hl ⟨hc.1, hc.2⟩)]
    rw [h1, Char.toLower, if_neg (by exact fun hc => h ⟨hc.1, hc.2⟩)]

theorem char_lower_then_upper (c : Char) (h : ¬ (97 ≤ c.toNat ∧ c.toNat ≤ 122)) :
    c.toLower.toUpper = c := by
  by_cases hu : 65 ≤ c.toNat ∧ c.toNat ≤ 90
  · have hv : (c.toNat + 32).isValidChar := Or.inl (by omega)
    have h1 : c.toLower = Char.ofNat (c.toNat + 32) := by
      rw [Char.toLower, if_pos (by exact ⟨hu.1, hu.2⟩)]
    have h2 : (c.toLower).toNat = c.toNat + 32 := by
      rw [h1, charToNatOfNatValid _ hv]
    rw [Char.toUpper, if_pos (by rw [h2]; omega)]
    rw [h2]
    have h3 : c.toNat + 32 - 32 = c.toNat := by omega
    rw [h3, Char.ofNat_toNat]
  · have h1 : c.toLower = c := by
      rw [Char.toLower, if_neg (by exact fun hc => hu ⟨hc.1, hc.2⟩)]
    rw [h1, Char.toUpper, if_neg (by exact fun hc => h ⟨hc.1, hc.2⟩)]

/-- Classified failures raised by the transformers via the error
method of the shared base class or by plain raise statements. -/
inductive TErr where
  | dependsOnS
  | dependsOnT
  | notSecondOrder
  | causalityViolated
  | notExpSin
  | cannotDetermine
  deriving DecidableEq, Repr

/-- Non-fatal diagnostics printed by the transformers. -/
inductive Diag where
  | assumingPositive
  | warningAssumingCausal
  | overdamped
  deriving DecidableEq, Repr

/-- Claim C5: both transform directions are linear.  The classifier
factors the constant out of each term (laplace.py line 237,
inverse_laplace.py line 313), splits a sum term by term (laplace.py
lines 239-243, inverse_laplace.py lines 365-373), and re-multiplies
the constant into every result component (laplace.py line 244,
inverse_laplace.py line 327, where it multiplies both members of the
(cresult, uresult) pair).  Hence for constants a, b and terms f, g,
the forward skeleton satisfies T[a f + b g] = a T[f] + b T[g], and the
inverse skeleton satisfies the same identity componentwise on its
(causal, undetermined) result pairs. -/
theorem c5_linearity_both_directions {M : Type} [AddCommMonoid M] [Module ℚ M]
    (T0 T0c T0u : ℕ → M) (a b : ℚ) (f g : LinE) :
    termF T0 (.add (.smul a f) (.smul b g))
      = a • termF T0 f + b • termF T0 g ∧
    termI T0c T0u (.add (.smul a f) (.smul b g))
      = a • termI T0c T0u f + b • termI T0c T0u g :=
  ⟨rfl, rfl⟩

/-- Claim C7, counterexample: the round trip does not restore every
function name.  A time-domain function whose name is the single
upper-case letter V maps forward to the frequency-domain name V
(laplace.py line 89 upper-cases the first character, which is already
upper case), and the inverse transform then lower-cases it
(inverse_laplace.py line 49), producing v, not the original V. -/
theorem c7_roundtrip_counterexample :
    decapitalizeName (capitalizeName [.ofNat 86]) = [.ofNat 118] ∧
    ([Char.ofNat 118] : List Char) ≠ [.ofNat 86] := by
  constructor
  · rfl
  · decide

/-- Claim C7, amended: the naming convention is the inverse pair
first-character-upper-cased / first-character-lower-cased, and the
round trip restores the original name exactly provided the name's
first character already respects the domain convention: forward then
inverse restores any name whose first character is not an upper-case
letter, and inverse then forward restores any name whose first
character is not a lower-case letter. -/
theorem c7_roundtrip_amended (n : List Char) :
    (headIsUpper n = false →
      decapitalizeName (capitalizeName n) = n) ∧
    (headIsLower n = false →
      capitalizeName (decapitalizeName n) = n) := by
  constructor
  · intro h
    cases n with
    | nil => rfl
    | cons c cs =>
        simp only [capitalizeName, decapitalizeName, List.cons.injEq, and_true]
        apply char_upper_then_lower
        simpa [headIsUpper, isUpperAlpha] using h
  · intro h
    cases n with
    | nil => rfl
    | cons c cs =>
        simp only [capitalizeName, decapitalizeName, List.cons.injEq, and_true]
        apply char_lower_then_upper
        simpa [headIsLower, isLowerAlpha] using h

/-- Witness for the amended C7 round trip at the concrete names v
(forward then inverse) and X (inverse then forward). -/
theorem c7_roundtrip_witness :
    decapitalizeName (capitalizeName [.ofNat 118]) = [.ofNat 118] ∧
    capitalizeName (decapitalizeName [.ofNat 88]) = [.ofNat 88] :=
  ⟨(c7_roundtrip_amended [.ofNat 118]).1 (by decide),
   (c7_roundtrip_amended [.ofNat 88]).2 (by decide)⟩

/-! ### C8: damped-sinusoid fast path and its fallback

inverse_laplace.py ratfun (lines 104-117) runs the damped-sinusoid
shortcut only when the damped_sin flag is set and the rational
function is exactly second order; otherwise the same invocation
continues with the general pole/residue synthesis of the same
expression.  do_damped_sin (lines 57-66) itself rejects shapes with
more than 3 numerator or denominator coefficients.  The order of a
rational function is modelled from the spec (it is computed by
Ratfun.degree in ratfun.py, which is not among the provided sources):
the order is the maximum of the numerator and denominator degrees. -/

/-- Coefficient-list view of a rational function, as produced by
Ratfun.coeffs and consumed by do_damped_sin. -/
structure RatShape where
  ncoeffs : List ℚ
  dcoeffs : List ℚ
  deriving DecidableEq, Repr

/-- Modelled from the spec: Ratfun.degree (ratfun.py, not among the
provided sources) is the order of the rational function, the maximum
of the numerator and denominator polynomial degrees; a polynomial
with k coefficients has degree k - 1. -/
def RatShape.order (sh : RatShape) : ℕ :=
  max (sh.ncoeffs.length - 1) (sh.dcoeffs.length - 1)

/-- Shape gate of do_damped_sin (inverse_laplace.py lines 65-66): more
than 3 numerator or denominator coefficients is rejected with a
not-a-second-order-response error; otherwise the closed-form
damped-sinusoid synthesis (abstracted as the parameter dsSuccess)
runs. -/
def doDampedSin {R : Type} (dsSuccess : RatShape → R) (sh : RatShape) :
    Except TErr R :=
  if sh.ncoeffs.length > 3 ∨ sh.dcoeffs.length > 3 then .error .notSecondOrder
  else .ok (dsSuccess sh)

/-- Dispatch of ratfun (inverse_laplace.py lines 104-113): with the
damped_sin flag set and an exactly second-order rational function the
damped-sinusoid shortcut is taken; in every other case the synthesis
continues on the general pole/residue path (abstracted as the
parameter general) applied to the same expression. -/
def ratfunDispatch {R : Type} (dsSuccess general : RatShape → R)
    (dampedSin : Bool) (sh : RatShape) : Except TErr R :=
  if dampedSin ∧ sh.order = 2 then doDampedSin dsSuccess sh
  else .ok (general sh)

/-- Claim C8: when the damped_sin flag is enabled but the shape
precondition of the shortcut fails (more than 3 numerator or
denominator coefficients, so not an exactly second-order response),
the rational-function synthesizer produces the general pole/residue
synthesis of the same expression; the not-second-order failure that
do_damped_sin raises on such shapes never escapes the synthesizer,
because the order guard routes those shapes to the general path. -/
theorem c8_damped_sin_fallback {R : Type} (dsSuccess general : RatShape → R)
    (sh : RatShape) (h : sh.ncoeffs.length > 3 ∨ sh.dcoeffs.length > 3) :
    ratfunDispatch dsSuccess general true sh = .ok (general sh) ∧
    doDampedSin dsSuccess sh = .error .notSecondOrder := by
  constructor
  · have horder : sh.order ≠ 2 := by
      unfold RatShape.order
      rcases h with h | h <;> omega
    unfold ratfunDispatch
    rw [if_neg]
    intro hc
    exact horder hc.2
  · unfold doDampedSin
    rw [if_pos h]

/-- Witness for C8 at a third-order denominator with four
coefficients. -/
theorem c8_damped_sin_fallback_witness :
    ratfunDispatch (fun _ => (0 : ℕ)) (fun _ => 1) true
      ⟨[1], [1, 0, 0, 1]⟩ = .ok 1 ∧
    doDampedSin (fun _ => (0 : ℕ)) ⟨[1], [1, 0, 0, 1]⟩
      = .error .notSecondOrder :=
  c8_damped_sin_fallback _ _ _ (by decide)

/-! ### C9: the domain-variable checks

laplace.py check (lines 43-46) rejects a time-domain expression that
already contains the frequency variable s; inverse_laplace.py check
(lines 29-32) rejects a frequency-domain expression that already
contains the time variable t.  The sequencing of the check ahead of
dispatch lives in the shared base class. -/

/-- Generic expression tree with named variables, used to model the
has-variable queries done by the checks. -/
inductive GExpr where
  | gvar (n : ℕ)
  | gconst (q : ℚ)
  | gadd (a b : GExpr)
  | gmul (a b : GExpr)
  | gfun (name : List Char) (arg : GExpr)
  deriving DecidableEq, Repr

/-- Occurrence query for a variable, modelling the has method of the
algebra substrate used by both checks. -/
def GExpr.hasVar (v : ℕ) : GExpr → Bool
  | .gvar n => n = v
  | .gconst _ => false
  | .gadd a b => a.hasVar v || b.hasVar v
  | .gmul a b => a.hasVar v || b.hasVar v
  | .gfun _ arg => arg.hasVar v

/-- Forward check (laplace.py lines 43-46): fail when the submitted
time-domain expression depends on the frequency variable. -/
def laplaceCheck (sVar : ℕ) (e : GExpr) : Except TErr Unit :=
  if e.hasVar sVar then .error .dependsOnS else .ok ()

/-- Inverse check (inverse_laplace.py lines 29-32): fail when the
submitted frequency-domain expression depends on the time
variable. -/
def inverseLaplaceCheck (tVar : ℕ) (e : GExpr) : Except TErr Unit :=
  if e.hasVar tVar then .error .dependsOnT else .ok ()

/-- Modelled from the spec: the shared transformer base class
(transformer.py, not among the provided sources) runs the
direction-specific check on the submitted expression before any
dispatch rule is attempted; a failed check aborts the whole call with
the classified error, so no rule runs and no partial result is
produced. -/
def transformTop {R : Type} (check : GExpr → Except TErr Unit)
    (dispatch : GExpr → Except TErr R) (e : GExpr) : Except TErr R := do
  check e
  dispatch e

/-- Claim C9: for every input, the forward transform fails with the
classified depends-on-s error when the submitted time-domain
expression contains the frequency variable, and the inverse transform
fails with the classified depends-on-t error when the submitted
frequency-domain expression contains the time variable; in both cases
the dispatch rules never run, so no partial result is produced,
whatever the dispatch would have computed. -/
theorem c9_domain_variable_checks {R : Type}
    (dispatchF dispatchI : GExpr → Except TErr R) (sVar tVar : ℕ)
    (e1 e2 : GExpr) (h1 : e1.hasVar sVar = true) (h2 : e2.hasVar tVar = true) :
    transformTop (laplaceCheck sVar) dispatchF e1 = .error .dependsOnS ∧
    transformTop (inverseLaplaceCheck tVar) dispatchI e2 = .error .dependsOnT := by
  constructor
  · unfold transformTop laplaceCheck
    rw [if_pos h1]
    rfl
  · unfold transformTop inverseLaplaceCheck
    rw [if_pos h2]
    rfl

/-- Witness for C9: a time-domain submission that is literally the
frequency variable, and a frequency-domain submission that is
literally the time variable. -/
theorem c9_domain_variable_checks_witness :
    transformTop (laplaceCheck 1) (fun e => .ok e) (.gvar 1)
      = .error .dependsOnS ∧
    transformTop (inverseLaplaceCheck 0) (fun e => .ok e) (.gvar 0)
      = .error .dependsOnT :=
  c9_domain_variable_checks _ _ 1 0 _ _ (by decide) (by decide)

/-! ### C1: delay extraction and the causality check

inverse_laplace.py delay_factor (lines 282-299) factors an s-domain
expression into a delay-free rest and the accumulated delay of its
degree-one exponential factors: a factor exp(c1 s + c0) contributes
-c1 to the delay and, when c0 is nonzero, a constant factor exp(c0)
to the rest.  term (lines 336-416) then inverse-transforms the rest
and re-applies the delay (lines 382-416): both result components are
shifted in time; a provably negative delay raises the
causality-violation error; a delay whose sign cannot be determined is
assumed non-negative with a printed diagnostic, and the undetermined
component is gated by a unit step at the delay and merged into the
causal component.  However, when the inner transform of the rest
fails, the except branch of term (lines 352-380) takes over, and all
three of its exits (lines 361, 373 and 380) return early, before the
delay re-application block is reached: the extracted delay, negative
or not, is silently dropped there. -/

/-- Multiplicative factor of an s-domain expression as classified by
delay_factor: an exponential whose exponent is the degree-at-most-one
polynomial c1 s + c0, or any other factor, kept opaque. -/
inductive SFactor where
  | expPoly (c1 c0 : ℚ)
  | other (i : ℕ)
  deriving DecidableEq, Repr

/-- Delay extraction (inverse_laplace.py delay_factor, lines 282-299):
each exponential factor with a degree-one exponent c1 s + c0
contributes -c1 to the delay and leaves exp(c0) in the rest when c0 is
nonzero; every other factor, including exponentials with a constant
exponent, is kept in the rest unchanged. -/
def delayFactor : List SFactor → List SFactor × ℚ
  | [] => ([], 0)
  | f :: fs =>
      let rd := delayFactor fs
      match f with
      | .expPoly c1 c0 =>
          if c1 ≠ 0 then
            (if c0 ≠ 0 then .expPoly 0 c0 :: rd.1 else rd.1, rd.2 - c1)
          else (f :: rd.1, rd.2)
      | .other _ => (f :: rd.1, rd.2)

/-- Substrate sign knowledge about a symbolic delay: the answers that
the is_negative query, the is_positive query and the syntactic
comparison with zero give for it.  For a concrete rational delay all
three are exact. -/
structure DelayVal where
  isNegQ : Bool
  isPosQ : Bool
  isZeroQ : Bool
  deriving DecidableEq, Repr

/-- Sign knowledge of a concrete rational delay. -/
def DelayVal.ofQ (q : ℚ) : DelayVal :=
  ⟨decide (q < 0), decide (0 < q), decide (q = 0)⟩

/-- Symbolic time-domain result component, with just enough structure
to record what term does to the pair (cresult, uresult): time shifts
by the delay, gating by a unit step at the delay, and sums. -/
inductive TRes where
  | zero
  | atom (i : ℕ)
  | add (a b : TRes)
  | shiftBy (e : TRes) (d : DelayVal)
  | mulStep (e : TRes) (d : DelayVal)
  deriving DecidableEq, Repr

/-- Delay re-application of term (inverse_laplace.py lines 382-416):
for a nonzero delay both components are shifted in time, a warning is
printed when the context is not causal, a non-negative or undetermined
delay gates the undetermined component with a unit step at the delay
(printing the assuming-positive diagnostic in the undetermined case)
and merges it into the causal component, and a provably negative
delay raises the causality violation; for a zero delay with a causal
context the undetermined component is gated by a unit step at zero. -/
def applyDelay (causal : Bool) (cres ures : TRes) (d : DelayVal) :
    Except TErr (TRes × TRes × List Diag) :=
  if ¬ d.isZeroQ then
    let c1 := TRes.shiftBy cres d
    let u1 := TRes.shiftBy ures d
    let diags0 := if ¬ causal then [Diag.warningAssumingCausal] else []
    if ¬ d.isNegQ then
      let diags := diags0 ++ (if ¬ d.isPosQ then [Diag.assumingPositive] else [])
      .ok (.add c1 (.mulStep u1 d), .zero, diags)
    else .error .causalityViolated
  else
    if causal then .ok (.add cres (.mulStep ures (DelayVal.ofQ 0)), .zero, [])
    else .ok (cres, ures, [])

/-- Top of term (inverse_laplace.py lines 336-416): the delay is
extracted from the factor list and the delay-free rest is handed to
term1.  The outcome of that inner call is the parameter term1res; in
this factor language the rest is a single product term, so in the
except branch the expansion of line 355 yields one term, simplify is
the identity, the retried term1 call of line 378 has the same outcome,
and control reaches the early return of line 380, which returns the
pair (0, sympy(rest)) or propagates the substrate failure (the
parameter sympyRes) without ever reaching the delay re-application
block.  Only when the inner call succeeds is the delay re-applied. -/
def invTermFull (term1res : Except TErr (TRes × TRes))
    (sympyRes : Except TErr TRes) (causal : Bool)
    (factors : List SFactor) : Except TErr (TRes × TRes × List Diag) :=
  let rd := delayFactor factors
  match term1res with
  | .ok cu => applyDelay causal cu.1 cu.2 (DelayVal.ofQ rd.2)
  | .error _ =>
      match sympyRes with
      | .ok r => .ok (.zero, r, [])
      | .error e => .error e

/-- Claim C1, evaluated at the failing input: for the inverse
transform of exp(2 s) times an opaque factor whose own inverse
transform fails (for instance log(s), on which every rule of term1
and the retry after simplify raise), the extracted delay -2 is
provably negative, yet the call returns the substrate fallback result
for the delay-free rest with no error, silently dropping the time
advance, or propagates the substrate's generic failure; the
causality violation is raised only on the path where the inner
transform succeeds. -/
theorem c1_causality_check_bypassed_on_fallback :
    invTermFull (.error .cannotDetermine) (.ok (.atom 2)) true
      [.expPoly 2 0, .other 0] = .ok (.zero, .atom 2, []) ∧
    invTermFull (.error .cannotDetermine) (.error .cannotDetermine) true
      [.expPoly 2 0, .other 0] = .error .cannotDetermine ∧
    invTermFull (.ok (.atom 0, .atom 1)) (.ok (.atom 2)) true
      [.expPoly 2 0, .other 0] = .error .causalityViolated := by
  refine ⟨rfl, rfl, ?_⟩
  have hd : (delayFactor [SFactor.expPoly 2 0, .other 0]).2 = -2 := by
    norm_num [delayFactor]
  have hofq : DelayVal.ofQ (-2) = ⟨true, false, false⟩ := by
    norm_num [DelayVal.ofQ]
  simp only [invTermFull, hd, hofq]
  simp [applyDelay]

/-! ### C6: the s-power rules for products with an unknown function

inverse_laplace.py product (lines 190-258): with a causal context the
integration limits are 0 and t, otherwise minus and plus infinity.  A
two-factor product whose second factor is an unknown function and
whose first factor is the power s to the minus one becomes the
definite integral of the unknown time function over a fresh dummy
variable, from the context-dependent lower limit up to t (line 248).
Other factor combinations become derivatives or nested
convolutions. -/

/-- Factor of an s-domain product: an unknown frequency-domain
function applied to s, an integer power of s, or an opaque factor. -/
inductive SExp where
  | sundef (name : List Char)
  | spow (k : ℤ)
  | sother (i : ℕ)
  deriving DecidableEq, Repr

/-- Variable of a time-domain expression: the time variable itself or
the k-th fresh dummy integration variable. -/
inductive TVarRef where
  | timeVar
  | dummy (k : ℕ)
  deriving DecidableEq, Repr

/-- Integration limit in the time domain. -/
inductive ILim where
  | izero
  | inegInf
  | iposInf
  | itime
  deriving DecidableEq, Repr

/-- Symbolic time-domain expression produced by the inverse product
rule: unknown functions, derivatives, definite integrals over a dummy
variable, sums, products, and the two substitutions used by the
convolution construction (t replaced by t minus the k-th dummy, and t
replaced by the k-th dummy). -/
inductive TExp where
  | tzero
  | tfunc (name : List Char) (v : TVarRef)
  | tderiv (e : TExp) (n : ℕ)
  | tinteg (e : TExp) (dummy : ℕ) (lo hi : ILim)
  | tadd (a b : TExp)
  | tmul (a b : TExp)
  | tshiftDummy (e : TExp) (k : ℕ)
  | tatDummy (e : TExp) (k : ℕ)
  deriving DecidableEq, Repr

/-- Whether an s-domain factor is an unknown function (the
AppliedUndef tests at inverse_laplace.py lines 211-215 and 229). -/
def SExp.isUndef : SExp → Bool
  | .sundef _ => true
  | _ => false

/-- Inverse similarity mapping for a plain unknown function
(inverse_laplace.py func, lines 40-55, in the scale-one shift-zero
case): the name's first character is lower-cased and the function is
applied to the given time-domain variable. -/
def invFunc (name : List Char) (v : TVarRef) : TExp :=
  .tfunc (decapitalizeName name) v

/-- Convolution fold of the product loop (inverse_laplace.py lines
250-256): each remaining factor is inverse-transformed, a fresh dummy
variable is introduced, and the running result r becomes the integral
of r(t - tau) times g(tau) over the context-dependent limits. -/
def convFold (term1 : SExp → TExp × TExp) (t1 t2 : ILim) :
    TExp → ℕ → List SExp → TExp
  | result, _, [] => result
  | result, k, f :: fs =>
      let cu := term1 f
      convFold term1 t1 t2
        (.tinteg (.tmul (.tshiftDummy result k) (.tatDummy (.tadd cu.1 cu.2) k))
          k t1 t2) (k + 1) fs

/-- Product rule of the inverse transformer (inverse_laplace.py
product, lines 190-258), for a term whose constant has already been
factored out.  The inner inverse transform of a single factor is the
parameter term1 (the claim does not depend on its output).  The
reordering of lines 209-213 and the s-power special cases of lines
229-249 are reproduced; sums inside a factor (the expansion of lines
216-222) do not arise in this factor language. -/
def invProduct (causal : Bool) (term1 : SExp → TExp × TExp)
    (factors : List SExp) : TExp :=
  let t1 := if causal then ILim.izero else ILim.inegInf
  let t2 := if causal then ILim.itime else ILim.iposInf
  match factors with
  | [] => .tzero
  | [f] => .tadd (term1 f).1 (term1 f).2
  | f0 :: f1 :: rest =>
      let swapped :=
        match rest with
        | f2 :: rest2 =>
            if ¬ f1.isUndef ∧ f2.isUndef then (f2, f1 :: rest2)
            else (f1, f2 :: rest2)
        | [] => (f1, ([] : List SExp))
      let g1 := swapped.1
      let grest := swapped.2
      let base := .tadd (term1 f0).1 (term1 f0).2
      match g1, f0 with
      | .sundef name, .spow k =>
          if k = 1 then
            convFold term1 t1 t2 (.tderiv (invFunc name .timeVar) 1) 0 grest
          else if 0 < k then
            convFold term1 t1 t2 (.tderiv (invFunc name .timeVar) k.toNat) 0 grest
          else if k = -1 then
            convFold term1 t1 t2
              (.tinteg (invFunc name (.dummy 0)) 0 t1 .itime) 1 grest
          else convFold term1 t1 t2 base 0 (g1 :: grest)
      | _, _ => convFold term1 t1 t2 base 0 (g1 :: grest)

/-- Claim C6: for every unknown frequency-domain function V(s), the
inverse transform of V(s)/s is the definite integral of v over a
fresh dummy variable, from a lower limit that is 0 when the causal
flag is set and minus infinity otherwise, up to t; in particular with
causal set it is the integral of v from 0 to t.  This holds for every
inner transform term1, since the special case discards the
inner result computed for the power factor. -/
theorem c6_integration_rule (name : List Char) (causal : Bool)
    (term1 : SExp → TExp × TExp) :
    invProduct causal term1 [.spow (-1), .sundef name]
      = .tinteg (.tfunc (decapitalizeName name) (.dummy 0)) 0
          (if causal then ILim.izero else ILim.inegInf) .itime ∧
    invProduct true term1 [.spow (-1), .sundef name]
      = .tinteg (.tfunc (decapitalizeName name) (.dummy 0)) 0 .izero .itime := by
  constructor
  · cases causal <;> rfl
  · rfl

/-! ### C2: the 0-minus origin convention for impulses

laplace.py evaluates a term by multiplying it with exp(-s t) and
integrating over t.  do_0minus (lines 67-72) integrates from a
negative symbol t0 to infinity and then takes the limit t0 to 0 from
below; do_0 (lines 74-76) integrates from 0.  term (lines 277-286)
sends a term with a bare Heaviside(t) factor to the plain evaluation
with the step absorbed, tries the 0-minus evaluation first on any
other term containing impulses or steps, and only falls back to the
plain 0-to-infinity evaluation.  The integral values below are the
ones the algebra substrate produces: a Dirac impulse at a integrates
to exp(-a s) when a lies inside the integration interval, to half
that on its boundary, and to 0 outside; the step and constant
integrals are the standard closed forms extracted by limits() under
the positive-s branch of the returned Piecewise. -/

/-- Impulse-bearing term: a Dirac impulse at time a, a unit step at
time a, or the constant one left after a bare Heaviside(t) factor is
absorbed into the integration limits. -/
inductive ImpE where
  | dirac (a : ℚ)
  | heavi (a : ℚ)
  | oneE
  deriving DecidableEq, Repr

/-- Value of the substrate integral of the term times exp(-s t) over
(lo, infinity), as a function of s (laplace.py limits, lines 51-65):
the Dirac impulse contributes exp(-a s) inside the interval, half of
it on the boundary (the convention the module docstring attributes to
the plain 0-based integral of DiracDelta), and 0 outside. -/
noncomputable def lapIntegralFrom (lo : ℚ) : ImpE → ℝ → ℝ
  | .dirac a => fun sv =>
      if lo < a then Real.exp (-(a : ℝ) * sv)
      else if lo = a then Real.exp (-(a : ℝ) * sv) / 2
      else 0
  | .heavi a => fun sv => Real.exp (-((max lo a : ℚ) : ℝ) * sv) / sv
  | .oneE => fun sv => Real.exp (-(lo : ℝ) * sv) / sv

/-- Left limit at zero of the lower integration bound (laplace.py
do_0minus, lines 67-72): the integral is taken from a negative t0 and
t0 is sent to 0 from below, so an impulse located at any non-negative
time, the origin included, is fully inside the integration
interval. -/
noncomputable def do0minus : ImpE → ℝ → ℝ
  | .dirac a => fun sv => if 0 ≤ a then Real.exp (-(a : ℝ) * sv) else 0
  | .heavi a => fun sv => Real.exp (-((max 0 a : ℚ) : ℝ) * sv) / sv
  | .oneE => fun sv => 1 / sv

/-- Plain evaluation with lower limit 0 (laplace.py do_0, lines
74-76). -/
noncomputable def do0 (e : ImpE) : ℝ → ℝ := lapIntegralFrom 0 e

/-- Impulse dispatch of the forward term classifier (laplace.py term,
lines 277-286) on the impulse grammar: a bare Heaviside(t) factor is
replaced by one and evaluated from 0 with the step absorbed into the
limits; any other impulse-bearing term is evaluated with the 0-minus
convention first (which succeeds on this grammar, so the fallback to
the plain evaluation is not reached); terms with no impulse use the
plain evaluation. -/
noncomputable def lapImpTerm (e : ImpE) : ℝ → ℝ :=
  if e = .heavi 0 then do0 .oneE
  else if (match e with | .dirac _ => true | .heavi _ => true | .oneE => false)
  then do0minus e
  else do0 e

/-- Claim C2: the forward transform of the Dirac impulse at the origin
is exactly 1 for every s, because the classifier evaluates
impulse-bearing terms with the 0-minus convention before any plain
0-to-infinity evaluation; the plain 0-based evaluation of the same
impulse gives only one half; and the 0-minus value is the genuine
limit, from below, of the lower-limit integrals that do_0minus
computes, for an impulse at any location. -/
theorem c2_dirac_at_origin_is_one :
    (∀ sv : ℝ, lapImpTerm (.dirac 0) sv = 1) ∧
    (∀ sv : ℝ, do0 (.dirac 0) sv = 1 / 2) ∧
    (∀ (a : ℚ) (sv : ℝ),
      Filter.Tendsto (fun lo : ℚ => lapIntegralFrom lo (.dirac a) sv)
        (nhdsWithin 0 (Set.Iio 0)) (nhds (do0minus (.dirac a) sv))) := by
  refine ⟨?_, ?_, ?_⟩
  · intro sv
    simp [lapImpTerm, do0minus]
  · intro sv
    simp [do0, lapIntegralFrom]
  · intro a sv
    by_cases ha : 0 ≤ a
    · have hconst : ∀ lo : ℚ, lo ∈ Set.Iio (0 : ℚ) →
          lapIntegralFrom lo (.dirac a) sv = Real.exp (-(a : ℝ) * sv) := by
        intro lo hlo
        have : lo < a := lt_of_lt_of_le hlo ha
        simp [lapIntegralFrom, this]
      have hval : do0minus (.dirac a) sv = Real.exp (-(a : ℝ) * sv) := by
        simp [do0minus, ha]
      rw [hval]
      refine Filter.Tendsto.congr' ?_ tendsto_const_nhds
      exact (Filter.eventually_mem_set.mpr self_mem_nhdsWithin).mono
        (fun lo hlo => (hconst lo hlo).symm)
    · push_neg at ha
      have hval : do0minus (.dirac a) sv = 0 := by
        simp [do0minus, not_le.mpr ha]
      rw [hval]
      have hmem : Set.Ioo a 0 ∈ nhdsWithin (0 : ℚ) (Set.Iio 0) :=
        Ioo_mem_nhdsWithin_Iio ⟨ha, le_refl 0⟩
      refine Filter.Tendsto.congr' ?_ tendsto_const_nhds
      refine (Filter.eventually_mem_set.mpr hmem).mono ?_
      intro lo hlo
      have h1 : ¬ lo < a := not_lt.mpr (le_of_lt hlo.1)
      have h2 : lo ≠ a := ne_of_gt hlo.1
      simp [lapIntegralFrom, h1, h2]

/-! ### C3: the repeated-pole synthesis loop

inverse_laplace.py ratfun, lines 174-183: for a pole p of remaining
multiplicity o greater than 1, the loop over n from 1 to o computes
r as the limit, for s to p, of the (o - n)-th derivative of
expr2 = (s - p)^o M/D divided by (o - n) factorial, and accumulates
r exp(p t) t^(n-1) divided by the running product bino, which equals
(n - 1) factorial at iteration n (it starts at 1 and is multiplied by
n at the end of each iteration).  The loop is embedded for the case
in which expr2 simplifies to a polynomial in s (for instance whenever
the denominator is exactly (s - p)^o), where the limit for s to p is
evaluation at p; polynomials are coefficient lists in ascending
order.  The accumulated sum is represented as the list of pairs
(coefficient, power of t), each pair standing for the summand
coefficient times t^power times exp(p t). -/

/-- Derivative of a rational-coefficient polynomial given in ascending
coefficient order; the auxiliary index k is the exponent of the first
listed coefficient. -/
def qpolyDerivAux : ℕ → List ℚ → List ℚ
  | _, [] => []
  | k, c :: cs => (k : ℚ) * c :: qpolyDerivAux (k + 1) cs

/-- Polynomial derivative, ascending coefficients. -/
def qpolyDeriv (p : List ℚ) : List ℚ := qpolyDerivAux 1 (p.drop 1)

/-- Iterated polynomial derivative. -/
def qpolyDerivN (p : List ℚ) : ℕ → List ℚ
  | 0 => p
  | m + 1 => qpolyDeriv (qpolyDerivN p m)

/-- Polynomial evaluation, ascending coefficients. -/
def qpolyEval (p : List ℚ) (x : ℚ) : ℚ :=
  p.foldr (fun c acc => c + x * acc) 0

/-- Body of the repeated-pole loop (inverse_laplace.py lines 177-183)
with the running divisor bino threaded exactly as in the source: at
each n the residue r is the (o - n)-th derivative of expr2 evaluated
at the pole and divided by (o - n) factorial, and the accumulated
summand is r / bino on the power t^(n-1), after which bino is
multiplied by n.  The fuel argument counts the remaining
iterations. -/
def rpAux (expr2 : List ℚ) (p : ℚ) (o : ℕ) : ℕ → ℕ → ℚ → List (ℚ × ℕ)
  | 0, _, _ => []
  | fuel + 1, n, bino =>
      let m := o - n
      let r := qpolyEval (qpolyDerivN expr2 m) p / (Nat.factorial m : ℚ)
      (r / bino, n - 1) :: rpAux expr2 p o fuel (n + 1) (bino * n)

/-- Contribution of a pole p with remaining multiplicity o in the
general synthesis path (inverse_laplace.py lines 174-183): the loop
runs n from 1 to o starting with bino equal to 1. -/
def repeatedPoleTerms (expr2 : List ℚ) (p : ℚ) (o : ℕ) : List (ℚ × ℕ) :=
  rpAux expr2 p o o 1 1

/-- Contribution asserted by the claim: for n from 1 to o the summand
r_n t^(n-1) exp(p t) with r_n the (o-n)-th derivative of expr2 at p
over (o-n) factorial, and no other scale factor on the t^(n-1)
term. -/
def c3ClaimTerms (expr2 : List ℚ) (p : ℚ) (o : ℕ) : List (ℚ × ℕ) :=
  (List.range o).map fun i =>
    (qpolyEval (qpolyDerivN expr2 (o - 1 - i)) p / (Nat.factorial (o - 1 - i) : ℚ), i)

/-- Real-valued time function denoted by a list of summands for the
pole p: the sum of coefficient times t^power times exp(p t). -/
noncomputable def poleTermsFun (p : ℚ) (terms : List (ℚ × ℕ)) : ℝ → ℝ :=
  fun tv => (terms.map fun ck => (ck.1 : ℝ) * tv ^ ck.2 * Real.exp ((p : ℝ) * tv)).sum

theorem rpAux_closed (expr2 : List ℚ) (p : ℚ) (o : ℕ) :
    ∀ (fuel n : ℕ), 1 ≤ n →
      rpAux expr2 p o fuel n (Nat.factorial (n - 1) : ℚ)
        = (List.range fuel).map fun i =>
            (qpolyEval (qpolyDerivN expr2 (o - (n + i))) p
                / (Nat.factorial (o - (n + i)) : ℚ)
                / (Nat.factorial (n + i - 1) : ℚ), n + i - 1) := by
  intro fuel
  induction fuel with
  | zero => intro n _; rfl
  | succ fuel ih =>
      intro n hn
      rw [List.range_succ_eq_map]
      simp only [rpAux, List.map_cons, List.map_map, List.cons.injEq]
      refine ⟨by simp, ?_⟩
      have hbino : (Nat.factorial (n - 1) : ℚ) * n = (Nat.factorial n : ℚ) := by
        have hrw : n = (n - 1) + 1 := by omega
        rw [hrw, Nat.factorial_succ]
        push_cast
        ring
      have hn1 : Nat.factorial n = Nat.factorial ((n + 1) - 1) := by
        congr 1
      rw [hbino, hn1, ih (n + 1) (by omega)]
      apply List.map_congr_left
      intro i _
      simp only [Function.comp_apply]
      rw [Prod.mk.injEq]
      have e1 : n + 1 + i = n + (i + 1) := by omega
      refine ⟨?_, by omega⟩
      rw [e1]

/-- Claim C3, counterexample: for the rational function 1/s^3 (pole
p = 0 with multiplicity o = 3, for which expr2 simplifies to the
constant polynomial 1), the code's accumulated contribution is
t^2/2 times exp(0 t) while the claim's formula, which has no scale factor
beyond r_n on the t^(n-1) term, gives t^2 times exp(0 t); at t = 1 the
two time functions take the different values one half and one. -/
theorem c3_repeated_pole_counterexample :
    repeatedPoleTerms [1] 0 3 = [(0, 0), (0, 1), (1 / 2, 2)] ∧
    c3ClaimTerms [1] 0 3 = [(0, 0), (0, 1), (1, 2)] ∧
    poleTermsFun 0 (repeatedPoleTerms [1] 0 3) 1 = 1 / 2 ∧
    poleTermsFun 0 (c3ClaimTerms [1] 0 3) 1 = 1 ∧
    ((1 : ℝ) / 2) ≠ 1 := by
  have h1 : repeatedPoleTerms [1] 0 3 = [(0, 0), (0, 1), (1 / 2, 2)] := by
    norm_num [repeatedPoleTerms, rpAux, qpolyDerivN, qpolyDeriv, qpolyDerivAux,
      qpolyEval, Nat.factorial]
  have h2 : c3ClaimTerms [1] 0 3 = [(0, 0), (0, 1), (1, 2)] := by
    norm_num [c3ClaimTerms, qpolyDerivN, qpolyDeriv, qpolyDerivAux,
      qpolyEval, Nat.factorial, List.range_succ]
  refine ⟨h1, h2, ?_, ?_, by norm_num⟩
  · rw [h1]
    simp [poleTermsFun]
  · rw [h2]
    simp [poleTermsFun]

/-- Claim C3, amended: for every distinct pole p with remaining
multiplicity o greater than 1 the contribution accumulated into the
undetermined-causality result is, for n = 1..o, the term
r_n exp(p t) t^(n-1) / (n-1)!, where r_n is the (o-n)-th derivative
of (s-p)^o M/D at s = p divided by (o-n) factorial; the extra
division by (n-1)! comes from the running bino divisor of the
loop. -/
theorem c3_repeated_pole_amended (expr2 : List ℚ) (p : ℚ) (o : ℕ) :
    repeatedPoleTerms expr2 p o
      = (List.range o).map fun i =>
          (qpolyEval (qpolyDerivN expr2 (o - 1 - i)) p
              / (Nat.factorial (o - 1 - i) : ℚ)
              / (Nat.factorial i : ℚ), i) := by
  unfold repeatedPoleTerms
  have h := rpAux_closed expr2 p o o 1 (le_refl 1)
  simp only [Nat.sub_self, Nat.factorial_zero, Nat.cast_one] at h
  rw [h]
  apply List.map_congr_left
  intro i _
  have e1 : o - (1 + i) = o - 1 - i := by omega
  have e2 : 1 + i - 1 = i := by omega
  rw [e1, e2]

/-! ### C4 and C10: the forward sin/cos envelope rule

laplace.py sin_cos (lines 166-229) matches a product of an optional
exponential envelope exp(alpha t + beta), a sine or cosine with
linear argument omega t + phi (a cosine adds pi/2 to the phase), and
an optional unit step Heaviside(eta t + zeta) with eta required to be
one and tau defined as minus zeta.  A provably negative tau is
replaced by zero with no diagnostic; a symbolic tau that is not known
positive keeps its value and prints the assuming-positive diagnostic;
a tau of the shape negative constant times symbol prints the
diagnostic and is replaced by zero; any other tau is kept.  When the
resolved tau is nonzero the phase is shifted by omega tau before the
closed form is built, and the form is multiplied by exp(-tau s) and,
for a nonzero alpha, by exp(alpha tau); a nonzero beta multiplies the
result by exp(beta).  Factor lists longer than three, a missing
sine/cosine, a single trailing factor that is not a Heaviside, and a
step scale other than one are classified failures; however a
sine/cosine followed by two trailing factors passes the length check
with both trailing factors silently ignored. -/

/-- Factor of a candidate sin/cos envelope term, as separated by
as_ordered_factors: an exponential envelope with argument
alpha t + beta, a sine or cosine with argument omega t + phi, a unit
step with argument eta t + zeta together with the substrate's sign
knowledge and syntactic shape of tau = -zeta, or any other factor. -/
inductive SCFactor where
  | expF (alpha beta : ℝ)
  | sinF (omega phi : ℝ)
  | cosF (omega phi : ℝ)
  | heaviF (eta zeta : ℝ) (tauSign : SSign) (tauShape : TShape)
  | otherF (i : ℕ)

/-- Closed form built by sin_cos (laplace.py lines 216-228) for
envelope coefficient alpha, envelope constant beta, frequency omega,
phase phi0 (the cosine's pi/2 already folded in) and resolved delay
tau, mirroring the source's conditional construction: the phase is
shifted by omega tau only for a nonzero tau, the exp(-tau s) and
exp(alpha tau) factors are attached only for nonzero tau (the latter
only for nonzero alpha), and exp(beta) only for nonzero beta. -/
noncomputable def sinCosE (a b omega phi0 tau : ℝ) : ℝ → ℝ :=
  let phi1 := if tau ≠ 0 then phi0 + omega * tau else phi0
  let E : ℝ → ℝ := fun sv =>
    (omega * Real.cos phi1 + (sv - a) * Real.sin phi1)
      / (omega ^ 2 + (sv - a) ^ 2)
  let E2 : ℝ → ℝ :=
    if tau ≠ 0 then
      fun sv => E sv * Real.exp (-tau * sv) *
        (if a ≠ 0 then Real.exp (a * tau) else 1)
    else E
  if b ≠ 0 then fun sv => Real.exp b * E2 sv else E2

/-- Step stage and result construction of sin_cos (laplace.py lines
197-229), given the envelope and trig data already parsed: a single
trailing Heaviside factor must have unit scale, its tau is resolved
by the sign/shape branches of lines 207-214 (possibly emitting the
assuming-positive diagnostic), a single trailing non-Heaviside factor
is a classified failure, and any other trailing configuration,
including two ignored trailing factors, leaves tau at zero. -/
noncomputable def sinCosTail (a b omega phi0 : ℝ) (rest : List SCFactor) :
    Except TErr ((ℝ → ℝ) × List Diag) :=
  match rest with
  | [.heaviF eta zeta sg shp] =>
      if eta ≠ 1 then .error .notExpSin
      else
        let tau0 := -zeta
        let td : ℝ × List Diag :=
          if sg = .sgNeg then (0, [])
          else if shp = .tsSymbol ∧ sg ≠ .sgPos then (tau0, [.assumingPositive])
          else if shp = .tsNegMulSymbol then (0, [.assumingPositive])
          else (tau0, [])
        .ok (sinCosE a b omega phi0 td.1, td.2)
  | [_] => .error .notExpSin
  | _ => .ok (sinCosE a b omega phi0 0, [])

/-- Forward sin/cos rule (laplace.py sin_cos, lines 166-229): reject
factor lists longer than three, take an optional leading exponential
envelope, require a sine or cosine next (the cosine folding pi/2 into
the phase), and delegate the optional step and the construction of
the closed form to the tail stage.  A missing sine/cosine (including
the out-of-range accesses the Python code would turn into exceptions)
is the classified failure that makes term fall through to the other
rules. -/
noncomputable def sinCosRule (factors : List SCFactor) :
    Except TErr ((ℝ → ℝ) × List Diag) :=
  if factors.length > 3 then .error .notExpSin
  else
    let envRest : (ℝ × ℝ) × List SCFactor :=
      match factors with
      | .expF a b :: rest => ((a, b), rest)
      | fs => ((0, 0), fs)
    match envRest.2 with
    | .sinF omega phi :: rest2 =>
        sinCosTail envRest.1.1 envRest.1.2 omega phi rest2
    | .cosF omega phi :: rest2 =>
        sinCosTail envRest.1.1 envRest.1.2 omega (phi + Real.pi / 2) rest2
    | _ => .error .notExpSin

/-- Value of the sin/cos rule's transform at a given s. -/
noncomputable def sinCosValueAt (factors : List SCFactor) (sv : ℝ) :
    Except TErr ℝ :=
  (sinCosRule factors).map fun p => p.1 sv

/-- Diagnostics emitted by the sin/cos rule. -/
noncomputable def sinCosDiags (factors : List SCFactor) :
    Except TErr (List Diag) :=
  (sinCosRule factors).map fun p => p.2

/-- Closed form asserted by claim C4, read literally: the transform of
the matched pattern is (omega cos phi + (s - alpha) sin phi) over
(omega^2 + (s - alpha)^2), with the original phase phi unshifted,
scaled by exp(beta) and, only for nonzero tau, by exp(-tau s) and
exp(alpha tau). -/
noncomputable def c4ClaimForm (a b omega phi tau : ℝ) : ℝ → ℝ :=
  fun sv => Real.exp b *
    (if tau ≠ 0 then Real.exp (-tau * sv) * Real.exp (a * tau) else 1) *
    ((omega * Real.cos phi + (sv - a) * Real.sin phi)
      / (omega ^ 2 + (sv - a) ^ 2))

/-- Closed form with the phase shift the source actually applies: for
delay tau the effective phase is the original phase plus omega tau,
and the exponential scalings are unconditional (they equal one when
tau, alpha or beta vanish). -/
noncomputable def scAmendedForm (a b omega phieff tau : ℝ) : ℝ → ℝ :=
  fun sv => Real.exp b * Real.exp (-tau * sv) * Real.exp (a * tau) *
    ((omega * Real.cos phieff + (sv - a) * Real.sin phieff)
      / (omega ^ 2 + (sv - a) ^ 2))

theorem sinCosE_eq_amended (a b omega phi0 tau : ℝ) :
    sinCosE a b omega phi0 tau = scAmendedForm a b omega (phi0 + omega * tau) tau := by
  funext sv
  by_cases ht : tau = 0
  · subst ht
    by_cases hb : b = 0
    · subst hb
      simp [sinCosE, scAmendedForm]
    · simp [sinCosE, scAmendedForm, hb]
      try ring
  · by_cases ha : a = 0
    · subst ha
      by_cases hb : b = 0
      · subst hb
        simp [sinCosE, scAmendedForm, ht]
        try ring
      · simp [sinCosE, scAmendedForm, ht, hb]
        try ring
    · by_cases hb : b = 0
      · subst hb
        simp [sinCosE, scAmendedForm, ht, ha]
        try ring
      · simp [sinCosE, scAmendedForm, ht, ha, hb]
        try ring

/-- Envelope scale of an optional exponential factor. -/
def envAlpha : Option (ℝ × ℝ) → ℝ
  | some ab => ab.1
  | none => 0

/-- Envelope constant of an optional exponential factor. -/
def envBeta : Option (ℝ × ℝ) → ℝ
  | some ab => ab.2
  | none => 0

/-- Resolved delay of an optional step factor with shift zeta: tau is
minus zeta, and zero with no step. -/
def stepTau : Option (ℝ × SSign × TShape) → ℝ
  | some z => -z.1
  | none => 0

/-- Factor list of the sin/cos envelope pattern: optional exponential
envelope, sine or cosine, optional unit-scale step with shift zeta
and the given substrate knowledge about tau. -/
def scFactors (env : Option (ℝ × ℝ)) (isCos : Bool) (omega phi : ℝ)
    (step : Option (ℝ × SSign × TShape)) : List SCFactor :=
  (match env with
   | some ab => [SCFactor.expF ab.1 ab.2]
   | none => []) ++
  [if isCos then SCFactor.cosF omega phi else SCFactor.sinF omega phi] ++
  (match step with
   | some z => [SCFactor.heaviF 1 z.1 z.2.1 z.2.2]
   | none => [])

/-- Claim C4, amended: for every term matching the sin/cos envelope
pattern with a step that is either absent or known-positive delayed
and whose tau is not syntactically a negative constant times a
symbol, the forward transform equals the closed form with the phase
shifted by omega tau (and by pi/2 for a cosine): exp(beta)
exp(-tau s) exp(alpha tau) times (omega cos(phi + omega tau) +
(s - alpha) sin(phi + omega tau)) over (omega^2 + (s - alpha)^2),
with no diagnostics; and a step delay of the
negative-constant-times-symbol shape is zeroed with the
assuming-positive diagnostic even when tau is known positive, the
rule then returning the undelayed closed form. -/
theorem c4_sincos_envelope_amended (env : Option (ℝ × ℝ)) (isCos : Bool)
    (omega phi : ℝ) (step : Option (ℝ × SSign × TShape))
    (hstep : ∀ zeta sg shp, step = some (zeta, sg, shp) →
      sg = SSign.sgPos ∧ shp ≠ TShape.tsNegMulSymbol ∧ 0 < -zeta) :
    (sinCosRule (scFactors env isCos omega phi step)
      = .ok (scAmendedForm (envAlpha env) (envBeta env) omega
          ((phi + (if isCos then Real.pi / 2 else 0)) + omega * stepTau step)
          (stepTau step), [])) ∧
    (∀ (w p z : ℝ),
      sinCosRule [SCFactor.sinF w p,
        SCFactor.heaviF 1 z SSign.sgPos TShape.tsNegMulSymbol]
        = .ok (sinCosE 0 0 w p 0, [Diag.assumingPositive])) := by
  refine ⟨?_, ?_⟩
  case refine_2 =>
    intro w p z
    have cne : SSign.sgPos ≠ SSign.sgNeg := by decide
    have cne2 : TShape.tsNegMulSymbol ≠ TShape.tsSymbol := by decide
    norm_num [sinCosRule, sinCosTail, cne, cne2]
  have key : ∀ (a b : ℝ) (rest : List SCFactor) (phi0 : ℝ),
      (rest = [] ∧ stepTau step = 0) ∨
        (∃ zeta sg shp, step = some (zeta, sg, shp) ∧
          rest = [SCFactor.heaviF 1 zeta sg shp]) →
      sinCosTail a b omega phi0 rest
        = .ok (scAmendedForm a b omega (phi0 + omega * stepTau step)
            (stepTau step), []) := by
    intro a b rest phi0 hcase
    rcases hcase with ⟨hre, hst⟩ | ⟨zeta, sg, shp, hse, hre⟩
    · subst hre
      rw [hst]
      simp only [sinCosTail]
      rw [sinCosE_eq_amended]
    · obtain ⟨hsg, hshp, hpos⟩ := hstep zeta sg shp hse
      subst hre hsg
      simp only [sinCosTail]
      rw [if_neg (by norm_num)]
      have hc1 : ¬ (SSign.sgPos = SSign.sgNeg) := by
        intro hcon
        cases hcon
      have hc2 : ¬ (shp = TShape.tsSymbol ∧ ¬ (SSign.sgPos = SSign.sgPos)) := by
        intro hcon
        exact hcon.2 rfl
      rw [if_neg hc1, if_neg hc2, if_neg hshp]
      have hτ : stepTau step = -zeta := by
        rw [hse]
        rfl
      rw [← hτ]
      rw [sinCosE_eq_amended]
  cases env with
  | none =>
      cases step with
      | none =>
          cases isCos with
          | false =>
              have h := key 0 0 [] phi (Or.inl ⟨rfl, rfl⟩)
              simpa [sinCosRule, scFactors, envAlpha, envBeta] using h
          | true =>
              have h := key 0 0 [] (phi + Real.pi / 2) (Or.inl ⟨rfl, rfl⟩)
              simpa [sinCosRule, scFactors, envAlpha, envBeta] using h
      | some z =>
          cases isCos with
          | false =>
              have h := key 0 0 [SCFactor.heaviF 1 z.1 z.2.1 z.2.2] phi
                (Or.inr ⟨z.1, z.2.1, z.2.2, rfl, rfl⟩)
              simpa [sinCosRule, scFactors, envAlpha, envBeta] using h
          | true =>
              have h := key 0 0 [SCFactor.heaviF 1 z.1 z.2.1 z.2.2]
                (phi + Real.pi / 2) (Or.inr ⟨z.1, z.2.1, z.2.2, rfl, rfl⟩)
              simpa [sinCosRule, scFactors, envAlpha, envBeta] using h
  | some ab =>
      cases step with
      | none =>
          cases isCos with
          | false =>
              have h := key ab.1 ab.2 [] phi (Or.inl ⟨rfl, rfl⟩)
              simpa [sinCosRule, scFactors, envAlpha, envBeta] using h
          | true =>
              have h := key ab.1 ab.2 [] (phi + Real.pi / 2) (Or.inl ⟨rfl, rfl⟩)
              simpa [sinCosRule, scFactors, envAlpha, envBeta] using h
      | some z =>
          cases isCos with
          | false =>
              have h := key ab.1 ab.2 [SCFactor.heaviF 1 z.1 z.2.1 z.2.2] phi
                (Or.inr ⟨z.1, z.2.1, z.2.2, rfl, rfl⟩)
              simpa [sinCosRule, scFactors, envAlpha, envBeta] using h
          | true =>
              have h := key ab.1 ab.2 [SCFactor.heaviF 1 z.1 z.2.1 z.2.2]
                (phi + Real.pi / 2) (Or.inr ⟨z.1, z.2.1, z.2.2, rfl, rfl⟩)
              simpa [sinCosRule, scFactors, envAlpha, envBeta] using h

/-- Witness for the amended C4 at a sine with frequency one, phase
zero, no envelope, and a step with known-positive delay one. -/
theorem c4_sincos_envelope_amended_witness :
    sinCosRule [SCFactor.sinF 1 0, SCFactor.heaviF 1 (-1) SSign.sgPos TShape.tsOther]
      = .ok (scAmendedForm 0 0 1 1 1, []) := by
  have h := (c4_sincos_envelope_amended none false 1 0
    (some (-1, SSign.sgPos, TShape.tsOther)) (by
      intro zeta sg shp hz
      simp only [Option.some.injEq, Prod.mk.injEq] at hz
      obtain ⟨hz1, hz2, hz3⟩ := hz
      subst hz1
      subst hz2
      subst hz3
      exact ⟨rfl, by decide, by norm_num⟩)).1
  simpa [scFactors, envAlpha, envBeta, stepTau] using h

/-- Claim C4, counterexample: at the concrete pattern sin(t) times
u(t - pi/2), whose delay tau = pi/2 is known positive, the source
(which shifts the phase by omega tau) produces a transform whose
value at s = 0 is cos(pi/2) = 0, while the claim's closed form with
the unshifted phase has value cos(0) = 1 there; moreover the
three-factor term sin(t) times two non-step factors deviates from the
factor pattern yet does not fall through: the rule accepts it,
silently ignoring both trailing factors, and returns the undelayed
sine transform, of value 1 at s = 0. -/
theorem c4_sincos_envelope_counterexample :
    sinCosValueAt [SCFactor.sinF 1 0,
      SCFactor.heaviF 1 (-(Real.pi / 2)) SSign.sgPos TShape.tsOther] 0 = .ok 0 ∧
    c4ClaimForm 0 0 1 0 (Real.pi / 2) 0 = 1 ∧
    sinCosValueAt [SCFactor.sinF 1 0, SCFactor.otherF 0, SCFactor.otherF 1] 0
      = .ok 1 ∧
    ((0 : ℝ) ≠ 1) := by
  have hpi : (Real.pi / 2 : ℝ) ≠ 0 := ne_of_gt (by positivity)
  have cne : SSign.sgPos ≠ SSign.sgNeg := by decide
  have cne2 : TShape.tsOther ≠ TShape.tsNegMulSymbol := by decide
  refine ⟨?_, ?_, ?_, by norm_num⟩
  · norm_num [sinCosValueAt, Except.map, sinCosRule, sinCosTail, sinCosE,
      cne, cne2, hpi, Real.cos_pi_div_two]
  · simp [c4ClaimForm, hpi]
  · norm_num [sinCosValueAt, Except.map, sinCosRule, sinCosTail, sinCosE]

/-- Claim C10: in the forward sin/cos rule, a step delay tau that is
provably negative is silently replaced by zero: the result equals the
transform of the same pattern with the step undelayed, with no error
and no diagnostic, whatever the syntactic shape of tau; the
assuming-positive diagnostic is emitted when tau is a symbol whose
sign is undetermined, not when tau is known negative. -/
theorem c10_negative_tau_silently_zeroed (omega phi zeta : ℝ) (shp : TShape) :
    sinCosRule [SCFactor.sinF omega phi, SCFactor.heaviF 1 zeta SSign.sgNeg shp]
      = sinCosRule [SCFactor.sinF omega phi] ∧
    sinCosRule [SCFactor.sinF omega phi, SCFactor.heaviF 1 zeta SSign.sgNeg shp]
      = .ok (sinCosE 0 0 omega phi 0, []) ∧
    sinCosDiags [SCFactor.sinF omega phi,
      SCFactor.heaviF 1 zeta SSign.sgUnknown TShape.tsSymbol]
      = .ok [Diag.assumingPositive] := by
  have cne : SSign.sgUnknown ≠ SSign.sgNeg := by decide
  have cne2 : SSign.sgUnknown ≠ SSign.sgPos := by decide
  have h2 : sinCosRule [SCFactor.sinF omega phi,
      SCFactor.heaviF 1 zeta SSign.sgNeg shp] = .ok (sinCosE 0 0 omega phi 0, []) := by
    norm_num [sinCosRule, sinCosTail]
  have h1 : sinCosRule [SCFactor.sinF omega phi] = .ok (sinCosE 0 0 omega phi 0, []) := by
    norm_num [sinCosRule, sinCosTail]
  refine ⟨h2.trans h1.symm, h2, ?_⟩
  norm_num [sinCosDiags, Except.map, sinCosRule, sinCosTail, cne, cne2]

end Lcapy
